import Mathlib

/-
Verification of the orchestration-kernel services of the AI Operator OS
(`ai_operator_os.py`) against its natural-language specification.

Shallow embedding conventions used throughout this development:

* Python dicts are insertion-ordered; they are embedded as association
  lists (`List (String × β)`) where writing an existing key replaces the
  binding in place and writing a fresh key appends (`alSet`), and reading
  is `List.lookup`.
* `datetime.now().isoformat()` is an environment input; every operation
  that stamps a timestamp takes the timestamp string as an explicit
  argument.
* Python's `sorted`/`list.sort` is specified as a stable sort; it is
  embedded as a stable insertion sort (`stableSortDesc`), which is
  extensionally equal to every stable sort for the same comparator.
* Machine floats are idealised as exact arithmetic: term counts and the
  evaluation scores are `ℚ`; a cosine-similarity score is carried in the
  exact form `num / Real.sqrt den2` with `num den2 : ℚ` (`SimScore`),
  so that all comparisons performed by the code stay decidable.
* Fallible provider handlers are `String → Except ε String`.
-/

namespace AIOS

/-- Write a key in an insertion-ordered dict: replace the first binding
with this key in place, otherwise append a fresh binding at the end. -/
def alSet {β : Type} : List (String × β) → String → β → List (String × β)
  | [], k, v => [(k, v)]
  | (k', v') :: rest, k, v =>
    if k' = k then (k, v) :: rest else (k', v') :: alSet rest k v

/-!  ## Stable descending sort

Python's `sorted(..., key=key, reverse=True)` and `list.sort(key=key,
reverse=True)` are stable sorts into descending key order (equal keys keep
their original relative order).  A stable insertion sort is extensionally
equal to every stable sort for the same comparator, so it is a faithful
embedding.  `le a b` reads "the sort key of `a` is at most that of `b`".
-/

/-- Insert `x` in front of the first element `y` with `le y x`; used with
a descending already-sorted tail this places `x` after every strictly
greater element and before every element whose key is `≤` its own. -/
def insertDesc {α : Type} (le : α → α → Bool) (x : α) : List α → List α
  | [] => [x]
  | y :: ys => if le y x then x :: y :: ys else y :: insertDesc le x ys

/-- Stable descending insertion sort. -/
def stableSortDesc {α : Type} (le : α → α → Bool) : List α → List α
  | [] => []
  | x :: xs => insertDesc le x (stableSortDesc le xs)

/-!  ## ContextManager  (`ai_operator_os.py` lines 233-265)

Per-session sliding window of messages.  `_sessions` is a
`defaultdict(lambda: deque(maxlen=window_size))`; a `deque` with
`maxlen=W` evicts from the left on append once it holds `W` entries.
-/

/-- One context message: `role`, `content` and the `timestamp` stamped by
`push` (`datetime.now().isoformat()`, passed in as an argument here). -/
structure CtxEntry where
  role : String
  content : String
  timestamp : String
  deriving DecidableEq

/-- Appending to a `deque(maxlen=W)`: append on the right, then drop from
the left down to length `W`. -/
def windowAppend {α : Type} (W : Nat) (l : List α) (e : α) : List α :=
  let l' := l ++ [e]
  l'.drop (l'.length - W)

structure ContextManager where
  window_size : Nat
  sessions : List (String × List CtxEntry)
  deriving DecidableEq

def ContextManager.init (W : Nat) : ContextManager := ⟨W, []⟩

/-- `get_context`: current window of a session, oldest first (a fresh
session reads as empty, matching the defaultdict's fresh deque). -/
def ContextManager.get_context (cm : ContextManager) (session_id : String) :
    List CtxEntry :=
  (cm.sessions.lookup session_id).getD []

/-- `push(session_id, role, content)`: append a message to the session's
window, evicting the oldest entry when the window is full. -/
def ContextManager.push (cm : ContextManager) (session_id role content ts : String) :
    ContextManager :=
  { cm with
    sessions := alSet cm.sessions session_id
      (windowAppend cm.window_size (cm.get_context session_id)
        ⟨role, content, ts⟩) }

/-- One `push` call, as data: session id, role, content, timestamp. -/
structure PushOp where
  session_id : String
  role : String
  content : String
  timestamp : String
  deriving DecidableEq

def ContextManager.pushSeq (cm : ContextManager) (ops : List PushOp) :
    ContextManager :=
  ops.foldl (fun c op => c.push op.session_id op.role op.content op.timestamp) cm

/-!  ## Scheduler  (`ai_operator_os.py` lines 174-230)

Task queue with policies `fifo`, `priority`, `round_robin`.  The payload
is opaque to the scheduler, so it is a type parameter `π`.
-/

/-- A task dict as built by `Scheduler.submit`. -/
structure Task (π : Type) where
  task_id : String
  agent_name : String
  payload : π
  priority : Int
  submitted_at : String
  status : String
  deriving DecidableEq

structure Scheduler (π : Type) where
  policy : String
  queue : List (Task π)
  completed : List (Task π)
  deriving DecidableEq

/-- `Scheduler.__init__`: rejects unknown policies with a `ValueError`. -/
def Scheduler.init (π : Type) (policy : String) : Except String (Scheduler π) :=
  if policy = "fifo" ∨ policy = "priority" ∨ policy = "round_robin" then
    .ok ⟨policy, [], []⟩
  else
    .error ("Unknown scheduling policy " ++ policy)

/-- `submit`: enqueue a task (status "queued"); returns the task and the
new scheduler state. -/
def Scheduler.submit {π : Type} (st : Scheduler π) (task_id agent_name : String)
    (payload : π) (priority : Int) (ts : String) : Task π × Scheduler π :=
  let task : Task π := ⟨task_id, agent_name, payload, priority, ts, "queued"⟩
  (task, { st with queue := st.queue ++ [task] })

/-- Comparator used by `sorted(self._queue, key=lambda t: t['priority'],
reverse=True)`. -/
def taskLE {π : Type} (a b : Task π) : Bool := a.priority ≤ b.priority

/-- `next_task`: None on an empty queue; under the "priority" policy the
queue is stably sorted by descending priority before the left pop; every
other policy pops the earliest-submitted task. -/
def Scheduler.next_task {π : Type} (st : Scheduler π) :
    Option (Task π) × Scheduler π :=
  match st.queue with
  | [] => (none, st)
  | q0 :: qrest =>
    if st.policy = "priority" then
      let sorted := stableSortDesc taskLE (q0 :: qrest)
      (sorted.head?, { st with queue := sorted.tail })
    else
      (some q0, { st with queue := qrest })

/-!  ## RelationalStore and MemoryManager long-term memory
(`ai_operator_os.py` lines 48-72 and 268-310)

The relational store is a dict of tables, each a dict from record id to a
record dict.  `MemoryManager.remember_long` writes a record with fields
namespace / key / value / updated_at under composite id `namespace::key`
in table "long_term_memory"; values are opaque, hence the type
parameter `V`. -/

/-- The record dict written by `remember_long`.  The Lean field `ns`
stands for the Python dict key "namespace". -/
structure LTRecord (V : Type) where
  ns : String
  key : String
  value : V
  updated_at : String
  deriving DecidableEq

/-- In-process relational store specialised to row type `ρ`:
`_tables` is a `defaultdict(dict)`. -/
def RelationalStore (ρ : Type) : Type := List (String × List (String × ρ))

/-- `insert(table, record_id, data)`: insert or replace a record
(`dict(data)` copies the dict; values are immutable here). -/
def RelationalStore.insert {ρ : Type} (st : RelationalStore ρ)
    (table record_id : String) (data : ρ) : RelationalStore ρ :=
  alSet st table (alSet ((st.lookup table).getD []) record_id data)

/-- `get(table, record_id)`: the record, or None if not found. -/
def RelationalStore.get {ρ : Type} (st : RelationalStore ρ)
    (table record_id : String) : Option ρ :=
  ((st.lookup table).getD []).lookup record_id

/-- `remember_long(namespace, key, value)` with the stamped timestamp as
an explicit argument. -/
def remember_long {V : Type} (st : RelationalStore (LTRecord V))
    (ns key : String) (value : V) (ts : String) : RelationalStore (LTRecord V) :=
  st.insert "long_term_memory" (ns ++ "::" ++ key) ⟨ns, key, value, ts⟩

/-- `recall_long(namespace, key, default)`. -/
def recall_long {V : Type} (st : RelationalStore (LTRecord V))
    (ns key : String) (default : V) : V :=
  match st.get "long_term_memory" (ns ++ "::" ++ key) with
  | some record => record.value
  | none => default

/-- One `remember_long` call, as data. -/
structure RememberOp (V : Type) where
  ns : String
  key : String
  value : V
  timestamp : String

def rememberSeq {V : Type} (st : RelationalStore (LTRecord V))
    (ops : List (RememberOp V)) : RelationalStore (LTRecord V) :=
  ops.foldl (fun s op => remember_long s op.ns op.key op.value op.timestamp) st

/-!  ## LLMCore  (`ai_operator_os.py` lines 322-385)

Provider-agnostic completion router.  A handler is an arbitrary callable
that may raise; it is embedded as `String → Except ε String` over an
abstract exception type `ε`.  Extra keyword options are forwarded opaquely
to the handler and do not influence the gateway's own logic, so they are
absorbed into the handler closure. -/

structure LLMCore (ε : Type) where
  providers : List (String × (String → Except ε String))
  default_provider : Option String

/-- `register_provider(name, handler, set_default)`: the first registered
provider becomes the default unless a later registration asks for it. -/
def LLMCore.register_provider {ε : Type} (st : LLMCore ε) (name : String)
    (handler : String → Except ε String) (set_default : Bool) : LLMCore ε :=
  { providers := alSet st.providers name handler,
    default_provider :=
      if set_default || st.default_provider.isNone then some name
      else st.default_provider }

/-- The completion-record dict returned by `complete`. -/
structure CompletionRecord where
  response : String
  provider : String
  prompt_tokens : Nat
  completion_tokens : Nat
  deriving DecidableEq

/-- `len(s.split())`: number of maximal non-whitespace runs. -/
def wordCountAux : List Char → Bool → Nat
  | [], _ => 0
  | c :: cs, inWord =>
    if c.isWhitespace then wordCountAux cs false
    else (if inWord then 0 else 1) + wordCountAux cs true

def wordCount (s : String) : Nat := wordCountAux s.data false

/-- `prompt[:80]` plus an ellipsis marker when the prompt is longer than
80 characters (Python slices strings by characters). -/
def truncatedFragment (prompt : String) : String :=
  (⟨prompt.data.take 80⟩ : String) ++ (if prompt.data.length > 80 then "..." else "")

/-- The deterministic built-in mock response. -/
def mockResponse (prompt : String) : String :=
  "[mock response to: " ++ truncatedFragment prompt ++ "]"

/-- The completion record produced on the mock path. -/
def mockRecord (prompt : String) : CompletionRecord :=
  ⟨mockResponse prompt, "mock", wordCount prompt, wordCount (mockResponse prompt)⟩

/-- `complete(prompt, provider, **kwargs)`: `chosen = provider or
self._default_provider` (Python `or` treats the empty string as falsy);
if `chosen` is truthy and registered, call its handler, otherwise use the
built-in mock and report provider name "mock". -/
def LLMCore.complete {ε : Type} (st : LLMCore ε) (prompt : String)
    (provider : Option String) : Except ε CompletionRecord :=
  let chosen : Option String :=
    match provider with
    | some p => if p = "" then st.default_provider else some p
    | none => st.default_provider
  match chosen with
  | none => .ok (mockRecord prompt)
  | some c =>
    if c = "" then .ok (mockRecord prompt)
    else
      match st.providers.lookup c with
      | none => .ok (mockRecord prompt)
      | some handler =>
        match handler prompt with
        | .error e => .error e
        | .ok text => .ok ⟨text, c, wordCount prompt, wordCount text⟩

/-- The method body of `complete` contains no write to `self`; a call is
the pure result together with the unchanged gateway state. -/
def LLMCore.completeStep {ε : Type} (st : LLMCore ε) (prompt : String)
    (provider : Option String) : Except ε CompletionRecord × LLMCore ε :=
  (st.complete prompt provider, st)

/-!  ## ToolAccessManager  (`ai_operator_os.py` lines 388-430)

RBAC service.  `_roles` is a `defaultdict(set)` from role name to a set
of tool names: a Python set is unordered, so it is embedded as a
duplicate-free list whose only observables are membership and the sorted
listing used by `permitted_tools`; `define_role` unions new tools in.
`_principals` maps principal to role (last write wins), `_audit_log` is
an append-only list. -/

structure AuditEntry where
  timestamp : String
  principal : String
  tool : String
  role : Option String
  allowed : Bool
  deriving DecidableEq

structure ToolAccessManager where
  roles : List (String × List String)
  principals : List (String × String)
  audit_log : List AuditEntry
  deriving DecidableEq

def ToolAccessManager.init : ToolAccessManager := ⟨[], [], []⟩

/-- Union a batch of tools into a set-as-list (skip those already
present, append the new ones). -/
def setUnion (s : List String) (tools : List String) : List String :=
  tools.foldl (fun acc t => if t ∈ acc then acc else acc ++ [t]) s

/-- The tool set currently granted to a role (empty for an undefined
role, as with `self._roles.get(role, set())`). -/
def ToolAccessManager.roleTools (st : ToolAccessManager) (role : String) :
    List String :=
  (st.roles.lookup role).getD []

/-- `define_role(role, tools)`: additive union into the role's set
(`self._roles[role].update(tools)`). -/
def ToolAccessManager.define_role (st : ToolAccessManager) (role : String)
    (tools : List String) : ToolAccessManager :=
  { st with roles := alSet st.roles role (setUnion (st.roleTools role) tools) }

/-- `assign_role(principal, role)`: last assignment wins. -/
def ToolAccessManager.assign_role (st : ToolAccessManager)
    (principal role : String) : ToolAccessManager :=
  { st with principals := alSet st.principals principal role }

/-- `check_access(principal, tool)`: resolve the principal's role (may be
absent), test membership, always append one audit entry, return the
boolean.  Total — the Python body cannot raise. -/
def ToolAccessManager.check_access (st : ToolAccessManager)
    (principal tool ts : String) : Bool × ToolAccessManager :=
  let role := st.principals.lookup principal
  let allowed : Bool :=
    match role with
    | none => false
    | some r => decide (tool ∈ st.roleTools r)
  (allowed,
    { st with audit_log := st.audit_log ++ [⟨ts, principal, tool, role, allowed⟩] })

/-- Ascending stable insertion sort on strings, for `sorted(set)`. -/
def sortStrings (l : List String) : List String :=
  stableSortDesc (fun a b => b ≤ a) l

/-- `permitted_tools(principal)`: the sorted tool set of the principal's
role; an unassigned principal resolves to role None, and
`self._roles.get(None, set())` yields the empty set. -/
def ToolAccessManager.permitted_tools (st : ToolAccessManager)
    (principal : String) : List String :=
  match st.principals.lookup principal with
  | none => sortStrings []
  | some r => sortStrings (st.roleTools r)

/-!  ## Text heuristics shared by EvaluationEngine and VectorStore

`re.findall(r'\b\w+\b', text.lower())` returns the maximal runs of word
characters of the lowercased text.  Word characters and lowercasing are
modelled at ASCII precision (`Char.isAlphanum`/`Char.toLower`), which
coincides with Python on ASCII text. -/

def isWordChar (c : Char) : Bool := c.isAlphanum || c = '_'

def lowerData (s : String) : List Char := s.data.map Char.toLower

/-- Maximal runs of word characters; `cur` is the reversed run being
collected. -/
def tokenRunsAux (cur : List Char) : List Char → List (List Char)
  | [] => if cur.isEmpty then [] else [cur.reverse]
  | c :: cs =>
    if isWordChar c then tokenRunsAux (c :: cur) cs
    else if cur.isEmpty then tokenRunsAux [] cs
    else cur.reverse :: tokenRunsAux [] cs

/-- The token stream `re.findall(r'\b\w+\b', s.lower())`. -/
def wordTokens (s : String) : List String :=
  (tokenRunsAux [] (lowerData s)).map (fun run => (⟨run⟩ : String))

/-!  ## EvaluationEngine  (`ai_operator_os.py` lines 433-531) -/

def isSentenceSep (c : Char) : Bool := c = '.' || c = '!' || c = '?'

/-- `re.split(r'[.!?]+', text)`: pieces between maximal separator runs,
keeping (possibly empty) leading and trailing pieces.  In skipping mode
the scanner is inside a separator run. -/
def sentencesAux (skipping : Bool) (cur : List Char) :
    List Char → List (List Char)
  | [] => if skipping then [[]] else [cur.reverse]
  | c :: cs =>
    if skipping then
      if isSentenceSep c then sentencesAux true [] cs
      else sentencesAux false [c] cs
    else
      if isSentenceSep c then cur.reverse :: sentencesAux true [] cs
      else sentencesAux false (c :: cur) cs

def sentenceSplit (text : String) : List (List Char) :=
  sentencesAux false [] (lowerData text)

/-- Substring containment (`tok in s` on Python strings). -/
def containsSub (needle : List Char) : List Char → Bool
  | [] => needle.isEmpty
  | c :: cs => needle.isPrefixOf (c :: cs) || containsSub needle cs

/-- `_UNCERTAINTY_TOKENS` (a Python set; only `any`-membership over it is
observed, so the iteration order is irrelevant). -/
def uncertaintyTokens : List String :=
  ["maybe", "perhaps", "possibly", "might", "could", "unsure", "unclear",
   "probably", "apparently", "seemingly", "i think", "i believe", "not sure",
   "hallucinate", "fabricate", "made up", "uncertain"]

/-- `_score_hallucination`: fraction of sentences containing an
uncertainty token (`re.split` never returns an empty list, so the guard
branch is unreachable, but it is kept for fidelity). -/
def score_hallucination (text : String) : ℚ :=
  let sentences := sentenceSplit text
  if sentences = [] then 0
  else
    ((sentences.countP
        (fun s => uncertaintyTokens.any (fun tok => containsSub tok.data s))) : ℚ)
      / (sentences.length : ℚ)

/-- `_score_relevance`: Jaccard similarity of the word-token sets of
prompt and response (sets are embedded as deduplicated lists; the
intersection filters one side, the union is `setUnion`). -/
def score_relevance (prompt response : String) : ℚ :=
  let p := (wordTokens prompt).dedup
  let r := (wordTokens response).dedup
  if p = [] ∧ r = [] then 1
  else if p = [] ∨ r = [] then 0
  else ((p.filter (· ∈ r)).length : ℚ) / ((setUnion p r).length : ℚ)

/-- `1.0 if correct else (0.0 if correct is False else None)`. -/
def correctnessScore (correct : Option Bool) : Option ℚ :=
  match correct with
  | some true => some 1
  | some false => some 0
  | none => none

/-- The per-record `scores` dict; its keys, in insertion order, are
hallucination_frequency, context_relevance, correctness.  The first two
are always populated by `evaluate`; correctness is nullable. -/
structure EvalScores where
  hallucination_frequency : Option ℚ
  context_relevance : Option ℚ
  correctness : Option ℚ
  deriving DecidableEq

structure EvalRecord where
  agent : String
  timestamp : String
  scores : EvalScores
  deriving DecidableEq

/-- `_records` is a `defaultdict(list)` from agent name to its
append-only evaluation records. -/
structure EvaluationEngine where
  records : List (String × List EvalRecord)
  deriving DecidableEq

def EvaluationEngine.evaluate (st : EvaluationEngine)
    (agent_name prompt response : String) (correct : Option Bool) (ts : String) :
    EvalRecord × EvaluationEngine :=
  let scores : EvalScores :=
    ⟨some (score_hallucination response),
     some (score_relevance prompt response),
     correctnessScore correct⟩
  let record : EvalRecord := ⟨agent_name, ts, scores⟩
  (record,
   ⟨alSet st.records agent_name (((st.records.lookup agent_name).getD []) ++ [record])⟩)

def EVALUATION_METRICS : List String :=
  ["hallucination_frequency", "context_relevance", "correctness"]

/-- `r['scores'][m]` for the three metric keys. -/
def EvalScores.item (s : EvalScores) (m : String) : Option ℚ :=
  if m = "hallucination_frequency" then s.hallucination_frequency
  else if m = "context_relevance" then s.context_relevance
  else s.correctness

/-- `aggregate(agent_name)` as the lookup function of the returned dict:
`none` means the key is absent from the dict, `some none` that it is
present and maps to None, `some (some q)` that it maps to the mean `q`.
With no records the dict maps every metric to None.  With records, the
dict comprehension ranges over `agg.items()`, and `agg` only ever
receives a key when a non-null value is appended to it, so the keys are
exactly the metrics with at least one non-null recorded value, each
mapped to the mean of those values (the `if vals else None` alternative
is unreachable because `agg` holds no empty lists); the keys appear in
first-appearance order, which a key lookup cannot observe.  A metric
whose recorded values are all null is therefore ABSENT from the result,
not mapped to None. -/
def EvaluationEngine.aggregate (st : EvaluationEngine) (agent_name : String) :
    String → Option (Option ℚ) := fun m =>
  let records := (st.records.lookup agent_name).getD []
  if m ∈ EVALUATION_METRICS then
    if records.isEmpty then some none
    else
      let vals := records.filterMap (fun r => r.scores.item m)
      if vals.isEmpty then none
      else some (some (vals.sum / (vals.length : ℚ)))
  else none

/-!  ## VectorStore  (`ai_operator_os.py` lines 75-113)

`_vectorise` builds a bag-of-words count vector (all entries are the
integers 1.0, 2.0, ... as floats) and divides it by its Euclidean norm
(or by 1.0 for the zero vector); `_cosine(q, d)` is then the dot product
of the two normalised vectors, i.e. `rawdot q d / (√fix(sumsq q) ·
√fix(sumsq d))` over the raw count vectors, where `fix x = 1` when
`x = 0` and `x` otherwise.  The embedding stores the exact integer count
vector and represents each score by the pair `(num, den2)` with real
value `num / √den2` (`SimScore.toReal`); `num ≥ 0` and `den2 > 0` always
hold (proved below), under which the comparison `num_a/√den2_a ≤
num_b/√den2_b` is equivalent to the decidable integer comparison
`num_a² · den2_b ≤ num_b² · den2_a` (`scoreLE_iff_toReal`), which is what
the sort uses. -/

/-- `counts[t] += 1.0` on an insertion-ordered dict of counts. -/
def bumpCount : List (String × Int) → String → List (String × Int)
  | [], t => [(t, 1)]
  | (k, v) :: rest, t =>
    if k = t then (k, v + 1) :: rest else (k, v) :: bumpCount rest t

/-- The term-frequency vector of `re.findall(r'\b\w+\b', text.lower())`. -/
def bowCounts (s : String) : List (String × Int) :=
  (wordTokens s).foldl bumpCount []

/-- `counts.get(t, 0.0)`. -/
def cnt (c : List (String × Int)) (t : String) : Int :=
  (c.lookup t).getD 0

/-- `sum(v * v for v in counts.values())`, the squared Euclidean norm. -/
def sumsq (c : List (String × Int)) : Int :=
  (c.map (fun kv => kv.2 * kv.2)).sum

/-- `sum(a.get(k, 0.0) * v for k, v in b.items())`: the raw dot product,
iterated over `b`'s entries exactly as `_cosine` does. -/
def rawdot (a b : List (String × Int)) : Int :=
  (b.map (fun kv => cnt a kv.1 * kv.2)).sum

/-- The zero-norm guard `norm = sqrt(sumsq) or 1.0`, applied to the
squared norm: `√(normFix x) = (√x or 1)` since `√x = 0` iff `x = 0`. -/
def normFix (x : Int) : Int := if x = 0 then 1 else x

/-- A cosine-similarity score in exact form; its float value in the code
is `num / √den2`. -/
structure SimScore where
  num : Int
  den2 : Int
  deriving DecidableEq

def mkScore (q d : List (String × Int)) : SimScore :=
  ⟨rawdot q d, normFix (sumsq q) * normFix (sumsq d)⟩

/-- "score a ≤ score b" through the squared cross-multiplication, valid
for the scores the store produces (num ≥ 0, den2 > 0). -/
def scoreLE (a b : SimScore) : Prop :=
  a.num * a.num * b.den2 ≤ b.num * b.num * a.den2

instance (a b : SimScore) : Decidable (scoreLE a b) := by
  unfold scoreLE
  exact inferInstance

def scoreLEb (a b : SimScore) : Bool := decide (scoreLE a b)

/-- "score = 1.0" in exact form: `num / √den2 = 1` iff `num² = den2` and
`num > 0` (see `scoreEqOne_iff_toReal`). -/
def scoreEqOne (s : SimScore) : Prop := s.num * s.num = s.den2 ∧ 0 < s.num

instance (s : SimScore) : Decidable (scoreEqOne s) := by
  unfold scoreEqOne
  exact inferInstance

/-- An indexed document: raw text, count vector, metadata (the stored
normalised vector is `counts / √(normFix (sumsq counts))`, kept here in
exact form). -/
structure VSRecord (μ : Type) where
  text : String
  counts : List (String × Int)
  metadata : μ
  deriving DecidableEq

/-- `_records`: insertion-ordered dict from doc id to record. -/
abbrev VectorStore (μ : Type) := List (String × VSRecord μ)

/-- `upsert(doc_id, text, metadata)`: index or replace a document. -/
def VectorStore.upsert {μ : Type} (st : VectorStore μ) (doc_id text : String)
    (metadata : μ) : VectorStore μ :=
  alSet st doc_id ⟨text, bowCounts text, metadata⟩

/-- One scored search result. -/
structure SearchHit (μ : Type) where
  id : String
  text : String
  score : SimScore
  metadata : μ
  deriving DecidableEq

/-- The `scored` list built by `search`, in store (insertion) order. -/
def scoredList {μ : Type} (st : VectorStore μ) (query : String) :
    List (SearchHit μ) :=
  st.map (fun p => ⟨p.1, p.2.text, mkScore (bowCounts query) p.2.counts,
    p.2.metadata⟩)

def hitLE {μ : Type} (a b : SearchHit μ) : Bool := scoreLEb a.score b.score

/-- `search(query, top_k)`: score every document against the query,
stable-sort by descending score, return the first `top_k`. -/
def VectorStore.search {μ : Type} (st : VectorStore μ) (query : String)
    (top_k : Nat) : List (SearchHit μ) :=
  (stableSortDesc hitLE (scoredList st query)).take top_k

/-!  ### Invariants of the count vectors -/

/-- Well-formedness of a count vector: strictly positive entries and
duplicate-free keys (every dict of counts has both). -/
def WFCounts (c : List (String × Int)) : Prop :=
  (∀ p ∈ c, 0 < p.2) ∧ (c.map Prod.fst).Nodup

/-- The float value of a score in the code, in exact real arithmetic. -/
noncomputable def SimScore.toReal (s : SimScore) : ℝ :=
  (s.num : ℝ) / Real.sqrt (s.den2 : ℝ)

/-- A well-formed store: every record's count vector is the one
`_vectorise` computes from its text (true of every state reachable by
`upsert`). -/
def WFStore {μ : Type} (st : VectorStore μ) : Prop :=
  ∀ p ∈ st, p.2.counts = bowCounts p.2.text

/-- All scores a well-formed store can produce: nonnegative numerator,
positive squared denominator, value at most 1. -/
def hitP {μ : Type} (h : SearchHit μ) : Prop :=
  0 ≤ h.score.num ∧ 0 < h.score.den2 ∧ h.score.num * h.score.num ≤ h.score.den2

/-!  ## Theorems -/

theorem lookup_alSet_self {β : Type} (l : List (String × β)) (k : String) (v : β) :
    (alSet l k v).lookup k = some v := by
  induction l with
  | nil => simp [alSet]
  | cons hd tl ih =>
    obtain ⟨k', v'⟩ := hd
    by_cases h : k' = k
    · simp [alSet, h, List.lookup]
    · have hb : (k == k') = false := beq_eq_false_iff_ne.mpr (fun hh => h hh.symm)
      simp [alSet, h, List.lookup, hb, ih]

theorem lookup_alSet_ne {β : Type} (l : List (String × β)) (k k' : String) (v : β)
    (h : k' ≠ k) : (alSet l k v).lookup k' = l.lookup k' := by
  have hb : (k' == k) = false := beq_eq_false_iff_ne.mpr h
  induction l with
  | nil => simp [alSet, List.lookup, hb]
  | cons hd tl ih =>
    obtain ⟨k₀, v₀⟩ := hd
    by_cases h0 : k₀ = k
    · subst h0
      simp [alSet, List.lookup, hb]
    · by_cases h1 : k' = k₀
      · subst h1
        simp [alSet, h0, List.lookup]
      · have hb1 : (k' == k₀) = false := beq_eq_false_iff_ne.mpr h1
        simp [alSet, h0, List.lookup, hb1, ih]

/-- Membership in the values reachable through `alSet`. -/
theorem mem_alSet {β : Type} (l : List (String × β)) (k : String) (v : β) :
    (k, v) ∈ alSet l k v := by
  induction l with
  | nil => simp [alSet]
  | cons hd tl ih =>
    obtain ⟨k', v'⟩ := hd
    by_cases h : k' = k
    · simp [alSet, h]
    · simp only [alSet, if_neg h]
      exact List.mem_cons_of_mem _ ih

theorem mem_alSet_elim {β : Type} (l : List (String × β)) (k : String) (v : β)
    (p : String × β) (hp : p ∈ alSet l k v) : p = (k, v) ∨ p ∈ l := by
  induction l with
  | nil => simpa [alSet] using hp
  | cons hd tl ih =>
    obtain ⟨k', v'⟩ := hd
    by_cases h : k' = k
    · subst h
      simp only [alSet, if_pos rfl] at hp
      rcases List.mem_cons.mp hp with h1 | h1
      · exact Or.inl h1
      · exact Or.inr (List.mem_cons_of_mem _ h1)
    · simp only [alSet, if_neg h] at hp
      rcases List.mem_cons.mp hp with h1 | h1
      · exact Or.inr (by simp [h1])
      · rcases ih h1 with h2 | h2
        · exact Or.inl h2
        · exact Or.inr (List.mem_cons_of_mem _ h2)

theorem insertDesc_perm {α : Type} (le : α → α → Bool) (x : α) (l : List α) :
    (insertDesc le x l).Perm (x :: l) := by
  induction l with
  | nil => simp [insertDesc]
  | cons y ys ih =>
    by_cases h : le y x
    · simp [insertDesc, h]
    · simp only [insertDesc, if_neg h]
      exact (ih.cons y).trans (List.Perm.swap x y ys)

theorem stableSortDesc_perm {α : Type} (le : α → α → Bool) (l : List α) :
    (stableSortDesc le l).Perm l := by
  induction l with
  | nil => simp [stableSortDesc]
  | cons x xs ih =>
    exact (insertDesc_perm le x (stableSortDesc le xs)).trans (ih.cons x)

theorem mem_insertDesc {α : Type} (le : α → α → Bool) (x : α) (l : List α)
    (z : α) (hz : z ∈ insertDesc le x l) : z = x ∨ z ∈ l :=
  List.mem_cons.mp ((insertDesc_perm le x l).mem_iff.mp hz)

/-- Sortedness of stable insertion sort, with comparator totality and
transitivity required only on elements satisfying an invariant `P` that
holds for every list member. -/
theorem pairwise_insertDesc {α : Type} (le : α → α → Bool) (P : α → Prop)
    (htot : ∀ a b, P a → P b → le a b = true ∨ le b a = true)
    (htrans : ∀ a b c, P a → P b → P c →
      le a b = true → le b c = true → le a c = true)
    (x : α) (hx : P x) :
    ∀ l : List α, (∀ a ∈ l, P a) →
      l.Pairwise (fun a b => le b a = true) →
      (insertDesc le x l).Pairwise (fun a b => le b a = true) := by
  intro l
  induction l with
  | nil => intro _ _; simp [insertDesc]
  | cons y ys ih =>
    intro hP hpw
    have hPy : P y := hP y (by simp)
    have hPys : ∀ a ∈ ys, P a := fun a ha => hP a (List.mem_cons_of_mem _ ha)
    rcases List.pairwise_cons.mp hpw with ⟨hy, hys⟩
    by_cases h : le y x
    · simp only [insertDesc, if_pos h]
      refine List.pairwise_cons.mpr ⟨?_, hpw⟩
      intro z hz
      rcases List.mem_cons.mp hz with h1 | h1
      · subst h1; exact h
      · exact htrans z y x (hPys z h1) hPy hx (hy z h1) h
    · simp only [insertDesc, if_neg h]
      refine List.pairwise_cons.mpr ⟨?_, ih hPys hys⟩
      intro z hz
      rcases mem_insertDesc le x ys z hz with h1 | h1
      · subst h1
        rcases htot y z hPy hx with h2 | h2
        · exact absurd h2 (by simpa using h)
        · exact h2
      · exact hy z h1

theorem pairwise_stableSortDesc {α : Type} (le : α → α → Bool) (P : α → Prop)
    (htot : ∀ a b, P a → P b → le a b = true ∨ le b a = true)
    (htrans : ∀ a b c, P a → P b → P c →
      le a b = true → le b c = true → le a c = true) :
    ∀ l : List α, (∀ a ∈ l, P a) →
      (stableSortDesc le l).Pairwise (fun a b => le b a = true) := by
  intro l
  induction l with
  | nil => intro _; simp [stableSortDesc]
  | cons x xs ih =>
    intro hP
    have hPx : P x := hP x (by simp)
    have hPxs : ∀ a ∈ xs, P a := fun a ha => hP a (List.mem_cons_of_mem _ ha)
    have hPsorted : ∀ a ∈ stableSortDesc le xs, P a := fun a ha =>
      hPxs a ((stableSortDesc_perm le xs).mem_iff.mp ha)
    exact pairwise_insertDesc le P htot htrans x hPx
      (stableSortDesc le xs) hPsorted (ih hPxs)

theorem windowAppend_length_le {α : Type} (W : Nat) (l : List α) (e : α) :
    (windowAppend W l e).length ≤ W := by
  simp only [windowAppend, List.length_drop]
  omega

theorem get_context_push_le (cm : ContextManager) (sid role content ts s : String) :
    ((cm.push sid role content ts).get_context s).length ≤ cm.window_size ∨
      (cm.push sid role content ts).get_context s = cm.get_context s := by
  by_cases h : s = sid
  · subst h
    left
    simp only [ContextManager.push, ContextManager.get_context, lookup_alSet_self]
    exact windowAppend_length_le _ _ _
  · right
    simp only [ContextManager.push, ContextManager.get_context,
      lookup_alSet_ne _ _ _ _ h]

theorem pushSeq_window_le (ops : List PushOp) :
    ∀ cm : ContextManager,
      (∀ s, (cm.get_context s).length ≤ cm.window_size) →
      ∀ s, ((cm.pushSeq ops).get_context s).length ≤
        (cm.pushSeq ops).window_size := by
  induction ops with
  | nil => intro cm h s; exact h s
  | cons op rest ih =>
    intro cm h s
    simp only [ContextManager.pushSeq, List.foldl_cons]
    refine ih _ ?_ s
    intro s'
    rcases get_context_push_le cm op.session_id op.role op.content op.timestamp s'
      with h1 | h1
    · exact h1
    · rw [show (cm.push op.session_id op.role op.content op.timestamp).window_size
        = cm.window_size from rfl, h1]
      exact h s'

theorem pushSeq_window_size (ops : List PushOp) :
    ∀ cm : ContextManager, (cm.pushSeq ops).window_size = cm.window_size := by
  induction ops with
  | nil => intro cm; rfl
  | cons op rest ih =>
    intro cm
    simp only [ContextManager.pushSeq, List.foldl_cons] at *
    exact ih _

/-- C1: For every session and every sequence of push operations on a
ContextManager constructed with window size W, the session's context
length is at most W at all times (any prefix of the sequence is itself a
sequence, so the universal over `ops` covers "at all times"), and
eviction is FIFO: with W = 3, pushing 4 entries leaves exactly 3 entries
and the oldest is evicted, so `get_context` returns them oldest-first
with the second-pushed entry at index 0. -/
theorem claim_C1_context_window :
    (∀ (W : Nat) (ops : List PushOp) (s : String),
      (((ContextManager.init W).pushSeq ops).get_context s).length ≤ W) ∧
    (((ContextManager.init 3).pushSeq
        [⟨"s", "user", "m1", "t1"⟩, ⟨"s", "user", "m2", "t2"⟩,
         ⟨"s", "user", "m3", "t3"⟩, ⟨"s", "user", "m4", "t4"⟩]).get_context "s"
      = [⟨"user", "m2", "t2"⟩, ⟨"user", "m3", "t3"⟩, ⟨"user", "m4", "t4"⟩]) := by
  constructor
  · intro W ops s
    have h := pushSeq_window_le ops (ContextManager.init W)
      (fun _ => by simp [ContextManager.get_context, ContextManager.init]) s
    rwa [pushSeq_window_size ops (ContextManager.init W)] at h
  · decide

theorem insertDesc_head_cons {α : Type} (le : α → α → Bool) (x y : α) (ys : List α) :
    (insertDesc le x (y :: ys)).head? = some (if le y x then x else y) := by
  by_cases h : le y x <;> simp [insertDesc, h]

/-- The head of the stable descending sort of a nonempty list is its
first element of maximal key: the list splits as `l1 ++ t :: l2` with
every element of `l1` strictly below `t` and every element at most `t`. -/
theorem stableSortDesc_head_firstMax {π : Type} (l : List (Task π)) (hne : l ≠ []) :
    ∃ (t : Task π) (l1 l2 : List (Task π)),
      (stableSortDesc taskLE l).head? = some t ∧
      l = l1 ++ t :: l2 ∧
      (∀ u ∈ l1, u.priority < t.priority) ∧
      (∀ u ∈ l, u.priority ≤ t.priority) := by
  induction l with
  | nil => exact absurd rfl hne
  | cons x xs ih =>
    cases hxs : xs with
    | nil =>
      refine ⟨x, [], [], by simp [stableSortDesc, insertDesc], by simp, ?_, ?_⟩
      · intro u hu; simp at hu
      · intro u hu; subst hxs; simp at hu; simp [hu]
    | cons y ys =>
      subst hxs
      obtain ⟨m, l1, l2, hhead, hsplit, hlt, hle⟩ := ih (by simp)
      have hsort : stableSortDesc taskLE (x :: y :: ys)
          = insertDesc taskLE x (stableSortDesc taskLE (y :: ys)) := rfl
      cases hs : stableSortDesc taskLE (y :: ys) with
      | nil =>
        have hlen := (stableSortDesc_perm taskLE (y :: ys)).length_eq
        rw [hs] at hlen
        simp at hlen
      | cons m0 rest =>
        have hm0 : m = m0 := by
          rw [hs] at hhead
          simpa using hhead.symm
        subst hm0
        by_cases hcmp : taskLE m x
        · -- x has priority ≥ the running max: x is the new first max
          refine ⟨x, [], y :: ys, ?_, by simp, by simp, ?_⟩
          · rw [hsort, hs, insertDesc_head_cons, if_pos hcmp]
          · intro u hu
            rcases List.mem_cons.mp hu with h1 | h1
            · simp [h1]
            · exact le_trans (hle u h1) (by simpa [taskLE] using hcmp)
        · -- x is strictly below the running max m
          have hxlt : x.priority < m.priority := by
            simpa [taskLE] using hcmp
          refine ⟨m, x :: l1, l2, ?_, by simp [hsplit], ?_, ?_⟩
          · rw [hsort, hs, insertDesc_head_cons, if_neg hcmp]
          · intro u hu
            rcases List.mem_cons.mp hu with h1 | h1
            · simpa [h1] using hxlt
            · exact hlt u h1
          · intro u hu
            rcases List.mem_cons.mp hu with h1 | h1
            · exact le_of_lt (h1 ▸ hxlt)
            · exact hle u h1

/-- C2: Under the "priority" policy, `next_task` on a non-empty queue
returns the task with the highest numeric priority, and among tasks of
equal priority the earliest-submitted one (the queue splits as
`l1 ++ t :: l2` with everything in `l1` strictly lower, so `t` is the
first task attaining the maximum); submitting priorities 1, 10, 5 in
that order makes the priority-10 task the first returned.  Under the
"fifo" policy `next_task` returns the earliest-submitted (front) task
regardless of priorities. -/
theorem claim_C2_scheduler_policies :
    (∀ (π : Type) (st : Scheduler π), st.policy = "priority" → st.queue ≠ [] →
      ∃ (t : Task π) (l1 l2 : List (Task π)),
        st.next_task.1 = some t ∧
        st.queue = l1 ++ t :: l2 ∧
        (∀ u ∈ l1, u.priority < t.priority) ∧
        (∀ u ∈ st.queue, u.priority ≤ t.priority)) ∧
    (∀ s0 : Scheduler Unit, Scheduler.init Unit "priority" = .ok s0 →
      ((((s0.submit "t1" "a" () 1 "u1").2.submit "t2" "a" () 10 "u2").2.submit
          "t3" "a" () 5 "u3").2.next_task).1
        = some ⟨"t2", "a", (), 10, "u2", "queued"⟩) ∧
    (∀ (π : Type) (st : Scheduler π), st.policy = "fifo" →
      st.next_task.1 = st.queue.head?) := by
  refine ⟨?_, ?_, ?_⟩
  · intro π st hpol hne
    cases hq : st.queue with
    | nil => exact absurd hq hne
    | cons q0 qrest =>
      obtain ⟨t, l1, l2, hhead, hsplit, hlt, hle⟩ :=
        stableSortDesc_head_firstMax (q0 :: qrest) (by simp)
      refine ⟨t, l1, l2, ?_, hsplit, hlt, ?_⟩
      · simp only [Scheduler.next_task, hq, hpol, if_pos]
        exact hhead
      · intro u hu
        exact hle u hu
  · intro s0 h0
    have hs0 : s0 = ⟨"priority", [], []⟩ := by
      simp only [Scheduler.init, if_pos (by decide :
        "priority" = "fifo" ∨ "priority" = "priority" ∨
          "priority" = "round_robin")] at h0
      injection h0 with h
      exact h.symm
    subst hs0
    decide
  · intro π st hpol
    cases hq : st.queue with
    | nil => simp [Scheduler.next_task, hq]
    | cons q0 qrest =>
      simp [Scheduler.next_task, hq, hpol]

/-- Witness for C2: each hypothesis-bearing conjunct applied at a
concrete scheduler. -/
theorem claim_C2_scheduler_policies_witness :
    (∃ (t : Task Unit) (l1 l2 : List (Task Unit)),
      (Scheduler.next_task ⟨"priority",
          [⟨"t1", "a", (), 1, "u1", "queued"⟩,
           ⟨"t2", "a", (), 10, "u2", "queued"⟩,
           ⟨"t3", "a", (), 5, "u3", "queued"⟩], []⟩).1 = some t ∧
      [⟨"t1", "a", (), 1, "u1", "queued"⟩,
       ⟨"t2", "a", (), 10, "u2", "queued"⟩,
       ⟨"t3", "a", (), 5, "u3", "queued"⟩] = l1 ++ t :: l2 ∧
      (∀ u ∈ l1, u.priority < t.priority) ∧
      (∀ u ∈ [(⟨"t1", "a", (), 1, "u1", "queued"⟩ : Task Unit),
              ⟨"t2", "a", (), 10, "u2", "queued"⟩,
              ⟨"t3", "a", (), 5, "u3", "queued"⟩], u.priority ≤ t.priority)) ∧
    ((((((⟨"priority", [], []⟩ : Scheduler Unit).submit "t1" "a" () 1 "u1").2.submit
          "t2" "a" () 10 "u2").2.submit "t3" "a" () 5 "u3").2.next_task).1
        = some ⟨"t2", "a", (), 10, "u2", "queued"⟩) ∧
    (Scheduler.next_task (⟨"fifo",
        [⟨"t1", "a", (), 7, "u1", "queued"⟩,
         ⟨"t2", "a", (), 9, "u2", "queued"⟩], []⟩ : Scheduler Unit)).1
      = [(⟨"t1", "a", (), 7, "u1", "queued"⟩ : Task Unit),
         ⟨"t2", "a", (), 9, "u2", "queued"⟩].head? := by
  refine ⟨?_, ?_, ?_⟩
  · exact claim_C2_scheduler_policies.1 Unit
      ⟨"priority",
        [⟨"t1", "a", (), 1, "u1", "queued"⟩,
         ⟨"t2", "a", (), 10, "u2", "queued"⟩,
         ⟨"t3", "a", (), 5, "u3", "queued"⟩], []⟩ rfl (by decide)
  · exact claim_C2_scheduler_policies.2.1 ⟨"priority", [], []⟩
      (by simp [Scheduler.init])
  · exact claim_C2_scheduler_policies.2.2 Unit
      ⟨"fifo",
        [⟨"t1", "a", (), 7, "u1", "queued"⟩,
         ⟨"t2", "a", (), 9, "u2", "queued"⟩], []⟩ rfl

theorem recall_remember_self {V : Type} (st : RelationalStore (LTRecord V))
    (ns key : String) (v : V) (ts : String) (d : V) :
    recall_long (remember_long st ns key v ts) ns key d = v := by
  simp [recall_long, remember_long, RelationalStore.insert, RelationalStore.get,
    lookup_alSet_self]

theorem recall_remember_other {V : Type} (st : RelationalStore (LTRecord V))
    (ns key ns' key' : String) (v : V) (ts : String) (d : V)
    (h : ns' ++ "::" ++ key' ≠ ns ++ "::" ++ key) :
    recall_long (remember_long st ns' key' v ts) ns key d =
      recall_long st ns key d := by
  simp only [recall_long, remember_long, RelationalStore.insert, RelationalStore.get,
    lookup_alSet_self, Option.getD_some,
    lookup_alSet_ne _ _ _ _ (fun hh : ns ++ "::" ++ key = ns' ++ "::" ++ key' => h hh.symm)]

theorem recall_rememberSeq_frame {V : Type}
    (ops : List (RememberOp V)) :
    ∀ (s : RelationalStore (LTRecord V)) (ns key : String) (d : V),
      (∀ op ∈ ops, op.ns ++ "::" ++ op.key ≠ ns ++ "::" ++ key) →
      recall_long (rememberSeq s ops) ns key d = recall_long s ns key d := by
  induction ops with
  | nil => intro s ns key d _; rfl
  | cons op rest ih =>
    intro s ns key d hops
    have step : rememberSeq s (op :: rest)
        = rememberSeq (remember_long s op.ns op.key op.value op.timestamp) rest := rfl
    rw [step, ih _ ns key d (fun o ho => hops o (List.mem_cons_of_mem _ ho)),
      recall_remember_other s ns key op.ns op.key op.value op.timestamp d
        (hops op (by simp))]

/-- C8: `recall_long(ns, k)` after `remember_long(ns, k, v)`, with no
intervening write to the composite key `ns::k` (the subsequent
`remember_long` calls `ops` all address a different composite key),
returns exactly `v`. -/
theorem claim_C8_long_term_round_trip {V : Type}
    (st : RelationalStore (LTRecord V)) (ns key : String) (v : V) (ts : String)
    (d : V) (ops : List (RememberOp V))
    (hops : ∀ op ∈ ops, op.ns ++ "::" ++ op.key ≠ ns ++ "::" ++ key) :
    recall_long (rememberSeq (remember_long st ns key v ts) ops) ns key d = v := by
  rw [recall_rememberSeq_frame ops _ ns key d hops]
  exact recall_remember_self st ns key v ts d

/-- Witness for C8 at a concrete store: write `("ns","k") ↦ 42`, then
write a different composite key, then read it back. -/
theorem claim_C8_long_term_round_trip_witness :
    recall_long (V := Nat)
      (rememberSeq (remember_long [] "ns" "k" 42 "t0")
        [⟨"ns", "k2", 7, "t1"⟩, ⟨"other", "k", 9, "t2"⟩]) "ns" "k" 0 = 42 :=
  claim_C8_long_term_round_trip [] "ns" "k" 42 "t0" 0
    [⟨"ns", "k2", 7, "t1"⟩, ⟨"other", "k", 9, "t2"⟩] (by decide)

/-- C4: `complete` uses the requested provider's registered handler when
one is requested; otherwise the registered default's handler; otherwise
the deterministic mock that echoes a truncated prompt fragment wrapped in
a marker and reports provider "mock".  The returned record carries the
response text, the resolved provider name and whitespace-split word
counts of the prompt and the response. -/
theorem claim_C4_gateway_resolution {ε : Type} (st : LLMCore ε)
    (prompt : String) :
    (∀ (p : String) (h : String → Except ε String) (text : String),
      p ≠ "" → st.providers.lookup p = some h → h prompt = .ok text →
      st.complete prompt (some p)
        = .ok ⟨text, p, wordCount prompt, wordCount text⟩) ∧
    (∀ (d : String) (h : String → Except ε String) (text : String),
      d ≠ "" → st.default_provider = some d →
      st.providers.lookup d = some h → h prompt = .ok text →
      st.complete prompt none
        = .ok ⟨text, d, wordCount prompt, wordCount text⟩) ∧
    (st.default_provider = none →
      st.complete prompt none
        = .ok ⟨"[mock response to: " ++ truncatedFragment prompt ++ "]",
               "mock", wordCount prompt,
               wordCount ("[mock response to: " ++ truncatedFragment prompt ++ "]")⟩) := by
  refine ⟨?_, ?_, ?_⟩
  · intro p h text hp hlook hok
    simp [LLMCore.complete, hp, hlook, hok]
  · intro d h text hd hdef hlook hok
    simp [LLMCore.complete, hdef, hd, hlook, hok]
  · intro hdef
    simp [LLMCore.complete, hdef, mockRecord, mockResponse]

/-- Witness for C4: a gateway with one registered provider "prov"
(also the default) and the three resolution paths at concrete prompts. -/
theorem claim_C4_gateway_resolution_witness :
    (LLMCore.complete (ε := Unit)
        ⟨[("prov", fun p => .ok ("echo " ++ p))], some "prov"⟩
        "hello there" (some "prov")
      = .ok ⟨"echo hello there", "prov", 2, 3⟩) ∧
    (LLMCore.complete (ε := Unit)
        ⟨[("prov", fun p => .ok ("echo " ++ p))], some "prov"⟩
        "hello there" none
      = .ok ⟨"echo hello there", "prov", 2, 3⟩) ∧
    (LLMCore.complete (ε := Unit) ⟨[], none⟩ "hi" none
      = .ok ⟨"[mock response to: " ++ truncatedFragment "hi" ++ "]",
             "mock", wordCount "hi",
             wordCount ("[mock response to: " ++ truncatedFragment "hi" ++ "]")⟩) := by
  refine ⟨?_, ?_, ?_⟩
  · have h := (claim_C4_gateway_resolution (ε := Unit)
      ⟨[("prov", fun p => .ok ("echo " ++ p))], some "prov"⟩ "hello there").1
      "prov" (fun p => .ok ("echo " ++ p)) "echo hello there"
      (by decide) (by simp [List.lookup]) rfl
    rw [h]
    rfl
  · have h := (claim_C4_gateway_resolution (ε := Unit)
      ⟨[("prov", fun p => .ok ("echo " ++ p))], some "prov"⟩ "hello there").2.1
      "prov" (fun p => .ok ("echo " ++ p)) "echo hello there"
      (by decide) rfl (by simp [List.lookup]) rfl
    rw [h]
    rfl
  · exact (claim_C4_gateway_resolution (ε := Unit) ⟨[], none⟩ "hi").2.2 rfl

/-- C5: a registered provider handler that fails makes `complete`
propagate that failure unmodified — no retry, no fallback to the mock —
and the gateway's state is unchanged by the failed call. -/
theorem claim_C5_provider_error_propagates {ε : Type} (st : LLMCore ε)
    (prompt p : String) (h : String → Except ε String) (e : ε)
    (hp : p ≠ "") (hlook : st.providers.lookup p = some h)
    (herr : h prompt = .error e) :
    st.completeStep prompt (some p) = (.error e, st) := by
  simp [LLMCore.completeStep, LLMCore.complete, hp, hlook, herr]

/-- Witness for C5: a gateway whose only provider always raises. -/
theorem claim_C5_provider_error_propagates_witness :
    LLMCore.completeStep (ε := String)
        ⟨[("bad", fun _ => .error "boom")], some "bad"⟩ "hi" (some "bad")
      = (.error "boom", ⟨[("bad", fun _ => .error "boom")], some "bad"⟩) :=
  claim_C5_provider_error_propagates
    ⟨[("bad", fun _ => .error "boom")], some "bad"⟩ "hi" "bad"
    (fun _ => .error "boom") "boom" (by decide) (by simp [List.lookup]) rfl

/-- C6: every `check_access` call appends exactly one audit entry
regardless of outcome (the embedding is a total function, matching that
the Python body cannot raise); a principal with no assigned role always
gets `false`; and `permitted_tools` of an unassigned principal is the
empty set. -/
theorem claim_C6_unassigned_principal (st : ToolAccessManager)
    (principal tool ts : String) :
    ((st.check_access principal tool ts).2.audit_log.length
        = st.audit_log.length + 1) ∧
    (st.principals.lookup principal = none →
      (st.check_access principal tool ts).1 = false) ∧
    (st.principals.lookup principal = none →
      st.permitted_tools principal = []) := by
  refine ⟨?_, ?_, ?_⟩
  · simp [ToolAccessManager.check_access]
  · intro h
    simp [ToolAccessManager.check_access, h]
  · intro h
    simp [ToolAccessManager.permitted_tools, h, sortStrings, stableSortDesc]

/-- Witness for C6: a manager with a defined role and an assigned
principal, checked for the unassigned principal "ghost". -/
theorem claim_C6_unassigned_principal_witness :
    ((ToolAccessManager.check_access
        ⟨[("admin", ["file_read"])], [("alice", "admin")], []⟩
        "ghost" "file_read" "t0").2.audit_log.length = 0 + 1) ∧
    ((ToolAccessManager.check_access
        ⟨[("admin", ["file_read"])], [("alice", "admin")], []⟩
        "ghost" "file_read" "t0").1 = false) ∧
    (ToolAccessManager.permitted_tools
        ⟨[("admin", ["file_read"])], [("alice", "admin")], []⟩ "ghost" = []) := by
  have h := claim_C6_unassigned_principal
    ⟨[("admin", ["file_read"])], [("alice", "admin")], []⟩ "ghost" "file_read" "t0"
  exact ⟨by simpa using h.1, h.2.1 (by decide), h.2.2 (by decide)⟩

theorem mem_setUnion_foldl (tools : List String) :
    ∀ (acc : List String) (t : String),
      t ∈ setUnion acc tools ↔ t ∈ acc ∨ t ∈ tools := by
  induction tools with
  | nil => intro acc t; simp [setUnion]
  | cons u rest ih =>
    intro acc t
    have step : setUnion acc (u :: rest)
        = setUnion (if u ∈ acc then acc else acc ++ [u]) rest := rfl
    rw [step, ih]
    by_cases hu : u ∈ acc
    · simp only [if_pos hu]
      constructor
      · rintro (h | h)
        · exact Or.inl h
        · exact Or.inr (List.mem_cons_of_mem _ h)
      · rintro (h | h)
        · exact Or.inl h
        · rcases List.mem_cons.mp h with h1 | h1
          · exact Or.inl (h1 ▸ hu)
          · exact Or.inr h1
    · simp only [if_neg hu, List.mem_append, List.mem_singleton]
      constructor
      · rintro ((h | h) | h)
        · exact Or.inl h
        · exact Or.inr (by simp [h])
        · exact Or.inr (List.mem_cons_of_mem _ h)
      · rintro (h | h)
        · exact Or.inl (Or.inl h)
        · rcases List.mem_cons.mp h with h1 | h1
          · exact Or.inl (Or.inr h1)
          · exact Or.inr h1

/-- C9: redefining a role merges the newly listed tools into the
existing set — after two `define_role` calls on the same role the
permitted-tool set is exactly the union of the previously granted tools
and both new batches, so nothing previously granted is ever removed or
replaced. -/
theorem claim_C9_roles_additive (st : ToolAccessManager) (role : String)
    (tools1 tools2 : List String) (t : String) :
    (t ∈ ((st.define_role role tools1).define_role role tools2).roleTools role
      ↔ t ∈ st.roleTools role ∨ t ∈ tools1 ∨ t ∈ tools2) ∧
    (t ∈ (st.define_role role tools1).roleTools role
      ↔ t ∈ st.roleTools role ∨ t ∈ tools1) := by
  have hone2 : ∀ (s : ToolAccessManager) (ts : List String),
      (s.define_role role ts).roleTools role = setUnion (s.roleTools role) ts := by
    intro s ts
    simp [ToolAccessManager.define_role, ToolAccessManager.roleTools, lookup_alSet_self]
  constructor
  · rw [hone2, hone2, mem_setUnion_foldl, mem_setUnion_foldl]
    tauto
  · rw [hone2, mem_setUnion_foldl]

/-- C10: `check_access` changes no state other than the audit log: the
role definitions and principal assignments are identical before and
after, and the audit log grows by exactly the one entry recording the
check. -/
theorem claim_C10_check_access_frame (st : ToolAccessManager)
    (principal tool ts : String) :
    ((st.check_access principal tool ts).2.roles = st.roles) ∧
    ((st.check_access principal tool ts).2.principals = st.principals) ∧
    ((st.check_access principal tool ts).2.audit_log
      = st.audit_log ++
        [⟨ts, principal, tool, st.principals.lookup principal,
          (st.check_access principal tool ts).1⟩]) :=
  ⟨rfl, rfl, rfl⟩

/-- C3 (code bug): the docstring of `aggregate` promises "Returns None
for a metric if no labelled data is available", and the claim reads the
same, but for an agent WITH records whose `correctness` values are all
null the code omits the `correctness` key from the returned dict instead
of mapping it to None.  At the failing input — one `evaluate` call with
`correct=None` — the key is absent (`= none` in the lookup encoding,
where the claim demands `some none`), even though the agent has exactly
one record; the claim's other parts hold: zero records yield None for
every metric, and a null correctness is excluded from (not zeroed into)
the average, as the mean over records with `correct=None` then
`correct=True` is 1, not 1/2. -/
theorem claim_C3_aggregate_absent_metric_key :
    (((((EvaluationEngine.evaluate ⟨[]⟩ "a" "the policy" "the policy" none
          "t1").2.records.lookup "a").getD []).length = 1) ∧
     ((EvaluationEngine.evaluate ⟨[]⟩ "a" "the policy" "the policy" none
          "t1").2.aggregate "a" "correctness" = none)) ∧
    (∀ m ∈ EVALUATION_METRICS,
      EvaluationEngine.aggregate ⟨[]⟩ "a" m = some none) ∧
    (((EvaluationEngine.evaluate
        (EvaluationEngine.evaluate ⟨[]⟩ "a" "the policy" "the policy" none
          "t1").2 "a" "the policy" "the policy" (some true) "t2").2.aggregate
        "a" "correctness") = some (some 1)) := by
  refine ⟨⟨by decide, by decide⟩, by decide, ?_⟩
  have h1 : ((EvaluationEngine.evaluate
      (EvaluationEngine.evaluate ⟨[]⟩ "a" "the policy" "the policy" none
        "t1").2 "a" "the policy" "the policy" (some true) "t2").2.aggregate
      "a" "correctness")
      = some (some (([(1 : ℚ)]).sum / (([(1 : ℚ)]).length : ℚ))) := rfl
  have h2 : (([(1 : ℚ)]).sum / (([(1 : ℚ)]).length : ℚ)) = 1 := by norm_num
  rw [h1, h2]

/-- C7 counterexample: the claim fails as stated, at two explicit
inputs.  (i) With "a" and then "b" upserted with the same text "x",
searching for "x" — document "b"'s own exact text — ranks "a" first, not
"b": an earlier-inserted document with the same (hence equal-scoring)
text wins the tie.  (ii) A document whose text "!!!" contains no word
token vectorises to the zero vector, and searching its own exact text
yields self-similarity 0, not 1 (in exact arithmetic: its score is
`0/√1`, and `scoreEqOne` is false). -/
theorem claim_C7_counterexample :
    (((VectorStore.upsert (VectorStore.upsert ([] : VectorStore Unit)
          "a" "x" ()) "b" "x" ()).search "x" 5).head?.map SearchHit.id
      = some "a") ∧
    (((VectorStore.upsert ([] : VectorStore Unit) "d" "!!!" ()).search
        "!!!" 5).map (fun h => (h.id, decide (scoreEqOne h.score)))
      = [("d", false)]) := by
  decide

theorem mem_keys_bumpCount (c : List (String × Int)) (t s : String) :
    s ∈ (bumpCount c t).map Prod.fst ↔ s ∈ c.map Prod.fst ∨ s = t := by
  induction c with
  | nil => simp [bumpCount]
  | cons hd rest ih =>
    obtain ⟨k, v⟩ := hd
    by_cases h : k = t
    · subst h
      simp [bumpCount]
      tauto
    · simp only [bumpCount, if_neg h, List.map_cons, List.mem_cons, ih]
      tauto

theorem WFCounts_bumpCount (c : List (String × Int)) (t : String)
    (h : WFCounts c) : WFCounts (bumpCount c t) := by
  obtain ⟨h1, h2⟩ := h
  induction c with
  | nil =>
    exact ⟨by simp [bumpCount], by simp [bumpCount]⟩
  | cons hd rest ih =>
    obtain ⟨k, v⟩ := hd
    have h1r : ∀ p ∈ rest, 0 < p.2 := fun p hp => h1 p (List.mem_cons_of_mem _ hp)
    rw [List.map_cons, List.nodup_cons] at h2
    obtain ⟨hk, h2r⟩ := h2
    by_cases hkt : k = t
    · subst hkt
      have hb : bumpCount ((k, v) :: rest) k = (k, v + 1) :: rest := by
        simp [bumpCount]
      rw [hb]
      constructor
      · intro p hp
        rcases List.mem_cons.mp hp with h3 | h3
        · have hv : 0 < v := h1 (k, v) (by simp)
          subst h3; simp; omega
        · exact h1 p (List.mem_cons_of_mem _ h3)
      · rw [List.map_cons, List.nodup_cons]
        exact ⟨hk, h2r⟩
    · have hb : bumpCount ((k, v) :: rest) t = (k, v) :: bumpCount rest t := by
        simp [bumpCount, hkt]
      rw [hb]
      obtain ⟨ih1, ih2⟩ := ih h1r h2r
      constructor
      · intro p hp
        rcases List.mem_cons.mp hp with h3 | h3
        · subst h3; exact h1 (k, v) (by simp)
        · exact ih1 p h3
      · rw [List.map_cons, List.nodup_cons]
        refine ⟨?_, ih2⟩
        rw [mem_keys_bumpCount]
        tauto

theorem WFCounts_foldl (toks : List String) :
    ∀ acc, WFCounts acc → WFCounts (toks.foldl bumpCount acc) := by
  induction toks with
  | nil => intro acc h; exact h
  | cons t rest ih =>
    intro acc h
    exact ih (bumpCount acc t) (WFCounts_bumpCount acc t h)

theorem WFCounts_bowCounts (s : String) : WFCounts (bowCounts s) :=
  WFCounts_foldl (wordTokens s) [] ⟨by simp, by simp⟩

theorem bumpCount_ne_nil (c : List (String × Int)) (t : String) :
    bumpCount c t ≠ [] := by
  cases c with
  | nil => simp [bumpCount]
  | cons hd rest =>
    obtain ⟨k, v⟩ := hd
    by_cases h : k = t <;> simp [bumpCount, h]

theorem foldl_bumpCount_ne_nil (toks : List String) :
    ∀ acc, acc ≠ [] → toks.foldl bumpCount acc ≠ [] := by
  induction toks with
  | nil => intro acc h; exact h
  | cons t rest ih =>
    intro acc _
    exact ih (bumpCount acc t) (bumpCount_ne_nil acc t)

theorem bowCounts_ne_nil (s : String) (h : wordTokens s ≠ []) :
    bowCounts s ≠ [] := by
  unfold bowCounts
  cases htoks : wordTokens s with
  | nil => exact absurd htoks h
  | cons t rest =>
    simp only [List.foldl_cons]
    exact foldl_bumpCount_ne_nil rest (bumpCount [] t) (bumpCount_ne_nil [] t)

theorem cnt_nonneg (c : List (String × Int)) (t : String)
    (h : ∀ p ∈ c, 0 < p.2) : 0 ≤ cnt c t := by
  induction c with
  | nil => simp [cnt, List.lookup]
  | cons hd rest ih =>
    obtain ⟨k, v⟩ := hd
    by_cases hkt : t = k
    · subst hkt
      have : 0 < v := h (t, v) (by simp)
      simp only [cnt, List.lookup, beq_self_eq_true, Option.getD_some]
      omega
    · have hb : (t == k) = false := beq_eq_false_iff_ne.mpr hkt
      simp only [cnt, List.lookup, hb]
      exact ih (fun p hp => h p (List.mem_cons_of_mem _ hp))

theorem cnt_of_mem (c : List (String × Int)) (t : String) (v : Int)
    (hnd : (c.map Prod.fst).Nodup) (hm : (t, v) ∈ c) : cnt c t = v := by
  induction c with
  | nil => simp at hm
  | cons hd rest ih =>
    obtain ⟨k, w⟩ := hd
    simp only [List.map_cons, List.nodup_cons] at hnd
    obtain ⟨hk, hndr⟩ := hnd
    rcases List.mem_cons.mp hm with h1 | h1
    · obtain ⟨h2, h3⟩ := Prod.mk.injEq .. ▸ h1
      subst h2; subst h3
      simp [cnt, List.lookup]
    · have htk : t ≠ k := by
        intro h
        subst h
        exact hk (by simpa using List.mem_map_of_mem Prod.fst h1)
      have hb : (t == k) = false := beq_eq_false_iff_ne.mpr htk
      simp only [cnt, List.lookup, hb]
      exact ih hndr h1

theorem cnt_of_not_mem (c : List (String × Int)) (t : String)
    (h : t ∉ c.map Prod.fst) : cnt c t = 0 := by
  induction c with
  | nil => simp [cnt, List.lookup]
  | cons hd rest ih =>
    obtain ⟨k, w⟩ := hd
    simp only [List.map_cons, List.mem_cons] at h
    push_neg at h
    have hb : (t == k) = false := beq_eq_false_iff_ne.mpr h.1
    simp only [cnt, List.lookup, hb]
    exact ih h.2

theorem sumsq_nonneg (c : List (String × Int)) : 0 ≤ sumsq c := by
  refine List.sum_nonneg ?_
  intro x hx
  obtain ⟨kv, _, hkv⟩ := List.mem_map.mp hx
  exact hkv ▸ mul_self_nonneg kv.2

theorem sumsq_pos (c : List (String × Int)) (h1 : ∀ p ∈ c, 0 < p.2)
    (hne : c ≠ []) : 0 < sumsq c := by
  cases c with
  | nil => exact absurd rfl hne
  | cons hd rest =>
    have hv : 0 < hd.2 := h1 hd (by simp)
    have hrest : 0 ≤ sumsq rest := sumsq_nonneg rest
    have : sumsq (hd :: rest) = hd.2 * hd.2 + sumsq rest := by
      simp [sumsq]
    rw [this]
    nlinarith

theorem eq_nil_of_sumsq_eq_zero (c : List (String × Int))
    (h1 : ∀ p ∈ c, 0 < p.2) (h : sumsq c = 0) : c = [] := by
  by_contra hne
  exact absurd h (ne_of_gt (sumsq_pos c h1 hne))

/-!  ### Dot product and Cauchy-Schwarz -/

theorem rawdot_nonneg (a b : List (String × Int))
    (ha : ∀ p ∈ a, 0 < p.2) (hb : ∀ p ∈ b, 0 < p.2) : 0 ≤ rawdot a b := by
  refine List.sum_nonneg ?_
  intro x hx
  obtain ⟨kv, hkv, hx⟩ := List.mem_map.mp hx
  have h1 : 0 ≤ cnt a kv.1 := cnt_nonneg a kv.1 ha
  have h2 : 0 < kv.2 := hb kv hkv
  exact hx ▸ mul_nonneg h1 (le_of_lt h2)

theorem rawdot_nil_left (b : List (String × Int)) : rawdot [] b = 0 := by
  refine List.sum_eq_zero ?_
  intro x hx
  obtain ⟨kv, _, hx⟩ := List.mem_map.mp hx
  have : cnt [] kv.1 = 0 := rfl
  rw [← hx, this, zero_mul]

theorem rawdot_nil_right (a : List (String × Int)) : rawdot a [] = 0 := rfl

theorem rawdot_self (c : List (String × Int))
    (hnd : (c.map Prod.fst).Nodup) : rawdot c c = sumsq c := by
  unfold rawdot sumsq
  congr 1
  refine List.map_congr_left ?_
  intro kv hkv
  rw [cnt_of_mem c kv.1 kv.2 hnd hkv]

theorem list_keysum (c : List (String × Int))
    (hnd : (c.map Prod.fst).Nodup) (f : String → Int) :
    (c.map (fun kv => f kv.1)).sum = ∑ t ∈ (c.map Prod.fst).toFinset, f t := by
  rw [List.sum_toFinset f hnd, List.map_map]
  rfl

theorem rawdot_eq_finset (a b : List (String × Int))
    (hbnd : (b.map Prod.fst).Nodup) :
    rawdot a b = ∑ t ∈ (b.map Prod.fst).toFinset, cnt a t * cnt b t := by
  unfold rawdot
  rw [List.map_congr_left (l := b)
    (f := fun kv => cnt a kv.1 * kv.2)
    (g := fun kv => cnt a kv.1 * cnt b kv.1)
    (fun kv hkv => by
      show cnt a kv.1 * kv.2 = cnt a kv.1 * cnt b kv.1
      rw [cnt_of_mem b kv.1 kv.2 hbnd hkv])]
  exact list_keysum b hbnd (fun t => cnt a t * cnt b t)

theorem sumsq_eq_finset (c : List (String × Int))
    (hnd : (c.map Prod.fst).Nodup) :
    sumsq c = ∑ t ∈ (c.map Prod.fst).toFinset, cnt c t * cnt c t := by
  unfold sumsq
  rw [List.map_congr_left (l := c)
    (f := fun kv => kv.2 * kv.2)
    (g := fun kv => cnt c kv.1 * cnt c kv.1)
    (fun kv hkv => by
      show kv.2 * kv.2 = cnt c kv.1 * cnt c kv.1
      rw [cnt_of_mem c kv.1 kv.2 hnd hkv])]
  exact list_keysum c hnd (fun t => cnt c t * cnt c t)

theorem rawdot_eq_union (a b : List (String × Int))
    (hbnd : (b.map Prod.fst).Nodup) :
    rawdot a b
      = ∑ t ∈ (a.map Prod.fst).toFinset ∪ (b.map Prod.fst).toFinset,
          cnt a t * cnt b t := by
  rw [rawdot_eq_finset a b hbnd]
  refine Finset.sum_subset Finset.subset_union_right ?_
  intro t _ htb
  rw [cnt_of_not_mem b t (by simpa using htb), mul_zero]

theorem sumsq_eq_union_left (a b : List (String × Int))
    (hand : (a.map Prod.fst).Nodup) :
    sumsq a
      = ∑ t ∈ (a.map Prod.fst).toFinset ∪ (b.map Prod.fst).toFinset,
          cnt a t * cnt a t := by
  rw [sumsq_eq_finset a hand]
  refine Finset.sum_subset Finset.subset_union_left ?_
  intro t _ hta
  rw [cnt_of_not_mem a t (by simpa using hta), mul_zero]

theorem sumsq_eq_union_right (a b : List (String × Int))
    (hbnd : (b.map Prod.fst).Nodup) :
    sumsq b
      = ∑ t ∈ (a.map Prod.fst).toFinset ∪ (b.map Prod.fst).toFinset,
          cnt b t * cnt b t := by
  rw [sumsq_eq_finset b hbnd]
  refine Finset.sum_subset Finset.subset_union_right ?_
  intro t _ htb
  rw [cnt_of_not_mem b t (by simpa using htb), mul_zero]

/-- Cauchy-Schwarz for the raw count vectors. -/
theorem rawdot_sq_le (a b : List (String × Int))
    (hA : WFCounts a) (hB : WFCounts b) :
    rawdot a b * rawdot a b ≤ sumsq a * sumsq b := by
  rw [rawdot_eq_union a b hB.2, sumsq_eq_union_left a b hA.2,
    sumsq_eq_union_right a b hB.2]
  have h := Finset.sum_mul_sq_le_sq_mul_sq
    ((a.map Prod.fst).toFinset ∪ (b.map Prod.fst).toFinset)
    (fun t => cnt a t) (fun t => cnt b t)
  calc (∑ t ∈ (a.map Prod.fst).toFinset ∪ (b.map Prod.fst).toFinset,
          cnt a t * cnt b t)
        * (∑ t ∈ (a.map Prod.fst).toFinset ∪ (b.map Prod.fst).toFinset,
            cnt a t * cnt b t)
      = (∑ t ∈ (a.map Prod.fst).toFinset ∪ (b.map Prod.fst).toFinset,
          cnt a t * cnt b t) ^ 2 := by ring
    _ ≤ (∑ t ∈ (a.map Prod.fst).toFinset ∪ (b.map Prod.fst).toFinset,
          cnt a t ^ 2)
        * ∑ t ∈ (a.map Prod.fst).toFinset ∪ (b.map Prod.fst).toFinset,
            cnt b t ^ 2 := h
    _ = (∑ t ∈ (a.map Prod.fst).toFinset ∪ (b.map Prod.fst).toFinset,
          cnt a t * cnt a t)
        * ∑ t ∈ (a.map Prod.fst).toFinset ∪ (b.map Prod.fst).toFinset,
            cnt b t * cnt b t := by
        congr 1 <;> exact Finset.sum_congr rfl (fun t _ => by ring)

/-!  ### Score-level facts -/

theorem normFix_pos (x : Int) (h : 0 ≤ x) : 0 < normFix x := by
  unfold normFix
  by_cases hx : x = 0
  · simp [hx]
  · simp [hx]
    omega

theorem mkScore_den2_pos (q d : List (String × Int)) :
    0 < (mkScore q d).den2 :=
  mul_pos (normFix_pos _ (sumsq_nonneg q)) (normFix_pos _ (sumsq_nonneg d))

theorem mkScore_num_nonneg (q d : List (String × Int))
    (hq : ∀ p ∈ q, 0 < p.2) (hd : ∀ p ∈ d, 0 < p.2) :
    0 ≤ (mkScore q d).num :=
  rawdot_nonneg q d hq hd

/-- Self-similarity of a nonzero count vector is exactly 1. -/
theorem mkScore_self_eqOne (c : List (String × Int))
    (hWF : WFCounts c) (hne : c ≠ []) : scoreEqOne (mkScore c c) := by
  have hpos : 0 < sumsq c := sumsq_pos c hWF.1 hne
  have hself : rawdot c c = sumsq c := rawdot_self c hWF.2
  have hfix : normFix (sumsq c) = sumsq c := by
    unfold normFix
    rw [if_neg (ne_of_gt hpos)]
  constructor
  · show rawdot c c * rawdot c c = normFix (sumsq c) * normFix (sumsq c)
    rw [hself, hfix]
  · show 0 < rawdot c c
    rw [hself]
    exact hpos

/-- No score exceeds 1: `num² ≤ den2`. -/
theorem mkScore_num_sq_le_den2 (q d : List (String × Int))
    (hQ : WFCounts q) (hD : WFCounts d) :
    (mkScore q d).num * (mkScore q d).num ≤ (mkScore q d).den2 := by
  have hden : 0 < (mkScore q d).den2 := mkScore_den2_pos q d
  by_cases hq0 : sumsq q = 0
  · have hq : q = [] := eq_nil_of_sumsq_eq_zero q hQ.1 hq0
    have : (mkScore q d).num = 0 := by
      show rawdot q d = 0
      rw [hq]
      exact rawdot_nil_left d
    rw [this, mul_zero]
    exact le_of_lt hden
  · by_cases hd0 : sumsq d = 0
    · have hd : d = [] := eq_nil_of_sumsq_eq_zero d hD.1 hd0
      have : (mkScore q d).num = 0 := by
        show rawdot q d = 0
        rw [hd]
        exact rawdot_nil_right q
      rw [this, mul_zero]
      exact le_of_lt hden
    · have hfix : (mkScore q d).den2 = sumsq q * sumsq d := by
        show normFix (sumsq q) * normFix (sumsq d) = _
        unfold normFix
        rw [if_neg hq0, if_neg hd0]
      rw [hfix]
      exact rawdot_sq_le q d hQ hD

/-- The decidable integer comparison used by the sort agrees with the
real comparison of score values, for the scores the store produces. -/
theorem scoreLE_iff_toReal (a b : SimScore) (han : 0 ≤ a.num) (hbn : 0 ≤ b.num)
    (had : 0 < a.den2) (hbd : 0 < b.den2) :
    scoreLE a b ↔ a.toReal ≤ b.toReal := by
  have hadR : (0:ℝ) < (a.den2 : ℝ) := by exact_mod_cast had
  have hbdR : (0:ℝ) < (b.den2 : ℝ) := by exact_mod_cast hbd
  have hsa : 0 < Real.sqrt (a.den2 : ℝ) := Real.sqrt_pos.mpr hadR
  have hsb : 0 < Real.sqrt (b.den2 : ℝ) := Real.sqrt_pos.mpr hbdR
  have hanR : (0:ℝ) ≤ (a.num : ℝ) := by exact_mod_cast han
  have hbnR : (0:ℝ) ≤ (b.num : ℝ) := by exact_mod_cast hbn
  have hsq_a : Real.sqrt (a.den2:ℝ) ^ 2 = (a.den2:ℝ) := Real.sq_sqrt hadR.le
  have hsq_b : Real.sqrt (b.den2:ℝ) ^ 2 = (b.den2:ℝ) := Real.sq_sqrt hbdR.le
  have key : (((a.num:ℝ) * Real.sqrt (b.den2:ℝ)) ^ 2
      ≤ ((b.num:ℝ) * Real.sqrt (a.den2:ℝ)) ^ 2) ↔ scoreLE a b := by
    rw [mul_pow, mul_pow, hsq_a, hsq_b]
    unfold scoreLE
    rw [show ((a.num:ℝ))^2 * (b.den2:ℝ) = ((a.num * a.num * b.den2 : ℤ) : ℝ) by
        push_cast; ring,
      show ((b.num:ℝ))^2 * (a.den2:ℝ) = ((b.num * b.num * a.den2 : ℤ) : ℝ) by
        push_cast; ring]
    exact Int.cast_le
  unfold SimScore.toReal
  rw [div_le_div_iff₀ hsa hsb, ← key]
  exact pow_le_pow_iff_left₀ (mul_nonneg hanR hsb.le)
    (mul_nonneg hbnR hsa.le) two_ne_zero

/-- "`num² = den2` and `num > 0`" says exactly that the real score value
is 1. -/
theorem scoreEqOne_iff_toReal (s : SimScore) (hd : 0 < s.den2) :
    scoreEqOne s ↔ s.toReal = 1 := by
  have hdR : (0:ℝ) < (s.den2 : ℝ) := by exact_mod_cast hd
  have hs : 0 < Real.sqrt (s.den2 : ℝ) := Real.sqrt_pos.mpr hdR
  constructor
  · rintro ⟨h1, h2⟩
    unfold SimScore.toReal
    rw [div_eq_one_iff_eq (ne_of_gt hs)]
    have hden : ((s.den2:ℝ)) = (s.num:ℝ) ^ 2 := by
      rw [← h1]; push_cast; ring
    rw [hden, Real.sqrt_sq (by exact_mod_cast h2.le)]
  · intro h
    unfold SimScore.toReal at h
    rw [div_eq_one_iff_eq (ne_of_gt hs)] at h
    have hnum_pos : (0:ℝ) < (s.num:ℝ) := h ▸ hs
    have h2 : ((s.num:ℝ)) ^ 2 = (s.den2:ℝ) := by
      rw [h]
      exact Real.sq_sqrt hdR.le
    constructor
    · have : ((s.num * s.num : ℤ) : ℝ) = ((s.den2 : ℤ) : ℝ) := by
        push_cast
        rw [← h2]
        ring
      exact_mod_cast this
    · exact_mod_cast hnum_pos

theorem toReal_le_one (s : SimScore) (hn : 0 ≤ s.num) (hd : 0 < s.den2)
    (h : s.num * s.num ≤ s.den2) : s.toReal ≤ 1 := by
  have hdR : (0:ℝ) < (s.den2 : ℝ) := by exact_mod_cast hd
  have hnR : (0:ℝ) ≤ (s.num : ℝ) := by exact_mod_cast hn
  unfold SimScore.toReal
  rw [div_le_one (Real.sqrt_pos.mpr hdR), Real.le_sqrt hnR hdR.le,
    show ((s.num:ℝ)) ^ 2 = ((s.num * s.num : ℤ) : ℝ) by push_cast; ring]
  exact_mod_cast h

theorem WFStore_nil {μ : Type} : WFStore ([] : VectorStore μ) := by
  intro p hp
  simp at hp

theorem WFStore_upsert {μ : Type} (st : VectorStore μ)
    (doc_id text : String) (meta : μ) (h : WFStore st) :
    WFStore (st.upsert doc_id text meta) := by
  intro p hp
  rcases mem_alSet_elim st doc_id ⟨text, bowCounts text, meta⟩ p hp with h1 | h1
  · rw [h1]
  · exact h p h1

theorem scoredList_P {μ : Type} (st : VectorStore μ) (query : String)
    (hWF : WFStore st) : ∀ h ∈ scoredList st query, hitP h := by
  intro h hh
  obtain ⟨p, hp, hh⟩ := List.mem_map.mp hh
  have hc : p.2.counts = bowCounts p.2.text := hWF p hp
  have hQ : WFCounts (bowCounts query) := WFCounts_bowCounts query
  have hD : WFCounts p.2.counts := hc ▸ WFCounts_bowCounts p.2.text
  have hscore : h.score = mkScore (bowCounts query) p.2.counts := by
    rw [← hh]
  refine ⟨?_, ?_, ?_⟩
  · rw [hscore]
    exact mkScore_num_nonneg _ _ hQ.1 hD.1
  · rw [hscore]
    exact mkScore_den2_pos _ _
  · rw [hscore]
    exact mkScore_num_sq_le_den2 _ _ hQ hD

theorem hitLE_iff {μ : Type} (a b : SearchHit μ) :
    hitLE a b = true ↔ scoreLE a.score b.score := by
  simp [hitLE, scoreLEb]

theorem hitLE_total {μ : Type} (a b : SearchHit μ) :
    hitLE a b = true ∨ hitLE b a = true := by
  rw [hitLE_iff, hitLE_iff]
  unfold scoreLE
  exact le_total _ _

theorem hitLE_trans {μ : Type} (a b c : SearchHit μ)
    (hPa : hitP a) (hPb : hitP b) (hPc : hitP c)
    (h1 : hitLE a b = true) (h2 : hitLE b c = true) : hitLE a c = true := by
  rw [hitLE_iff] at h1 h2 ⊢
  unfold scoreLE at h1 h2 ⊢
  have h3 := mul_le_mul_of_nonneg_right h1 (le_of_lt hPc.2.1)
  have h4 := mul_le_mul_of_nonneg_right h2 (le_of_lt hPa.2.1)
  have h5 : b.score.den2 * (a.score.num * a.score.num * c.score.den2)
      ≤ b.score.den2 * (c.score.num * c.score.num * a.score.den2) := by
    nlinarith [h3, h4]
  exact (mul_le_mul_left hPb.2.1).mp h5

theorem head?_take {α : Type} (l : List α) (k : Nat) (hk : 1 ≤ k) :
    (l.take k).head? = l.head? := by
  cases l with
  | nil => simp
  | cons x xs =>
    cases k with
    | zero => omega
    | succ n => simp

/-- In a store with duplicate-free keys, an element of `alSet l k v` is
either the new binding or an old binding with a different key. -/
theorem mem_alSet_nodup {β : Type} (l : List (String × β)) (k : String) (v : β)
    (hnd : (l.map Prod.fst).Nodup) (p : String × β) (hp : p ∈ alSet l k v) :
    p = (k, v) ∨ (p ∈ l ∧ p.1 ≠ k) := by
  induction l with
  | nil =>
    left
    simpa [alSet] using hp
  | cons hd rest ih =>
    obtain ⟨k', v'⟩ := hd
    rw [List.map_cons, List.nodup_cons] at hnd
    obtain ⟨hk', hndr⟩ := hnd
    by_cases h : k' = k
    · subst h
      simp only [alSet, if_pos rfl] at hp
      rcases List.mem_cons.mp hp with h1 | h1
      · exact Or.inl h1
      · right
        refine ⟨List.mem_cons_of_mem _ h1, ?_⟩
        intro hpk
        have hmem : p.1 ∈ rest.map Prod.fst := List.mem_map_of_mem Prod.fst h1
        rw [hpk] at hmem
        exact hk' hmem
    · simp only [alSet, if_neg h] at hp
      rcases List.mem_cons.mp hp with h1 | h1
      · right
        refine ⟨by simp [h1], ?_⟩
        rw [h1]
        exact h
      · rcases ih hndr h1 with h2 | h2
        · exact Or.inl h2
        · exact Or.inr ⟨List.mem_cons_of_mem _ h2.1, h2.2⟩

/-- C7 (amended): after `upsert(id, text, metadata)` on a store with
duplicate-free ids whose records carry the vectors of their texts,
(1) `search` returns a descending-score prefix: its output is the first
k elements of a permutation of the scored document list that is pairwise
sorted by non-increasing real score; (2) when the text contains at least
one word token, the upserted document's self-similarity score is exactly
1 and no document in the store scores above 1 against that query; (3) if
moreover k ≥ 1 and no OTHER stored document also attains score 1 against
the text, the search for the document's own exact text ranks that
document first, with score 1. -/
theorem claim_C7_search_own_text {μ : Type} (st : VectorStore μ)
    (doc_id text : String) (meta : μ) (query : String) (k : Nat)
    (hnd : (st.map Prod.fst).Nodup) (hWF : WFStore st) :
    (∃ full : List (SearchHit μ),
        (st.upsert doc_id text meta).search query k = full.take k ∧
        full.Perm (scoredList (st.upsert doc_id text meta) query) ∧
        full.Pairwise (fun a b => b.score.toReal ≤ a.score.toReal)) ∧
    (wordTokens text ≠ [] →
      (mkScore (bowCounts text) (bowCounts text)).toReal = 1 ∧
      ∀ h ∈ scoredList (st.upsert doc_id text meta) text,
        h.score.toReal ≤ 1) ∧
    (wordTokens text ≠ [] → 1 ≤ k →
      (∀ p ∈ st, p.1 ≠ doc_id →
        ¬ scoreEqOne (mkScore (bowCounts text) p.2.counts)) →
      ∃ h, ((st.upsert doc_id text meta).search text k).head? = some h ∧
        h.id = doc_id ∧ h.score.toReal = 1) := by
  have hWF' : WFStore (st.upsert doc_id text meta) :=
    WFStore_upsert st doc_id text meta hWF
  have hsortedP : ∀ (qq : String),
      ∀ z ∈ stableSortDesc hitLE (scoredList (st.upsert doc_id text meta) qq),
        hitP z := by
    intro qq z hz
    exact scoredList_P _ qq hWF' z
      ((stableSortDesc_perm hitLE _).mem_iff.mp hz)
  have hpairwise : ∀ (qq : String),
      (stableSortDesc hitLE (scoredList (st.upsert doc_id text meta) qq)).Pairwise
        (fun a b => hitLE b a = true) := by
    intro qq
    exact pairwise_stableSortDesc hitLE hitP
      (fun a b _ _ => hitLE_total a b)
      (fun a b c hPa hPb hPc => hitLE_trans a b c hPa hPb hPc)
      _ (scoredList_P _ qq hWF')
  refine ⟨?_, ?_, ?_⟩
  · refine ⟨stableSortDesc hitLE (scoredList (st.upsert doc_id text meta) query),
      rfl, stableSortDesc_perm hitLE _, ?_⟩
    refine List.Pairwise.imp_of_mem ?_ (hpairwise query)
    intro a b ha hb hab
    have hPa := hsortedP query a ha
    have hPb := hsortedP query b hb
    exact (scoreLE_iff_toReal b.score a.score hPb.1 hPa.1 hPb.2.1 hPa.2.1).mp
      (hitLE_iff b a |>.mp hab)
  · intro h1
    have hQ : WFCounts (bowCounts text) := WFCounts_bowCounts text
    have hne : bowCounts text ≠ [] := bowCounts_ne_nil text h1
    refine ⟨?_, ?_⟩
    · exact (scoreEqOne_iff_toReal _ (mkScore_den2_pos _ _)).mp
        (mkScore_self_eqOne _ hQ hne)
    · intro h hh
      have hP := scoredList_P _ text hWF' h hh
      exact toReal_le_one h.score hP.1 hP.2.1 hP.2.2
  · intro h1 hk huniq
    have hQ : WFCounts (bowCounts text) := WFCounts_bowCounts text
    have hneQ : bowCounts text ≠ [] := bowCounts_ne_nil text h1
    have heqOneStar : scoreEqOne (mkScore (bowCounts text) (bowCounts text)) :=
      mkScore_self_eqOne _ hQ hneQ
    have hmem_st' : (doc_id, (⟨text, bowCounts text, meta⟩ : VSRecord μ))
        ∈ st.upsert doc_id text meta := mem_alSet st doc_id _
    have hstar_mem : (⟨doc_id, text, mkScore (bowCounts text) (bowCounts text),
        meta⟩ : SearchHit μ) ∈ scoredList (st.upsert doc_id text meta) text :=
      List.mem_map.mpr ⟨(doc_id, ⟨text, bowCounts text, meta⟩), hmem_st', rfl⟩
    have hperm := stableSortDesc_perm hitLE
      (scoredList (st.upsert doc_id text meta) text)
    cases hfull : stableSortDesc hitLE
        (scoredList (st.upsert doc_id text meta) text) with
    | nil =>
      rw [hfull] at hperm
      exact absurd (hperm.symm.mem_iff.mp hstar_mem) (by simp)
    | cons h rest =>
      have hh_mem_sorted : h ∈ stableSortDesc hitLE
          (scoredList (st.upsert doc_id text meta) text) := by
        rw [hfull]; simp
      have hh_mem : h ∈ scoredList (st.upsert doc_id text meta) text :=
        hperm.mem_iff.mp hh_mem_sorted
      have hPh := scoredList_P _ text hWF' h hh_mem
      -- `h` dominates the self hit
      have hstarLE : scoreLE (mkScore (bowCounts text) (bowCounts text)) h.score := by
        have hstar_full : (⟨doc_id, text,
            mkScore (bowCounts text) (bowCounts text), meta⟩ : SearchHit μ)
            ∈ h :: rest := by
          rw [← hfull]
          exact hperm.symm.mem_iff.mp hstar_mem
        rcases List.mem_cons.mp hstar_full with hcase | hcase
        · rw [← hcase]
          exact le_refl _
        · have hpw := hpairwise text
          rw [hfull] at hpw
          have := (List.pairwise_cons.mp hpw).1 _ hcase
          exact (hitLE_iff _ _).mp this
      -- hence `h`'s score is exactly 1
      have hden_star : 0 < (mkScore (bowCounts text) (bowCounts text)).den2 :=
        mkScore_den2_pos _ _
      have hcancel : h.score.den2 ≤ h.score.num * h.score.num := by
        unfold scoreLE at hstarLE
        rw [heqOneStar.1] at hstarLE
        have h2 : h.score.den2 * (mkScore (bowCounts text) (bowCounts text)).den2
            ≤ (h.score.num * h.score.num)
              * (mkScore (bowCounts text) (bowCounts text)).den2 := by
          nlinarith [hstarLE]
        exact (mul_le_mul_right hden_star).mp h2
      have heq : h.score.num * h.score.num = h.score.den2 :=
        le_antisymm hPh.2.2 hcancel
      have hnum_pos : 0 < h.score.num := by
        rcases lt_or_eq_of_le hPh.1 with h' | h'
        · exact h'
        · exfalso
          have : h.score.den2 = 0 := by rw [← heq, ← h', mul_zero]
          exact absurd this (ne_of_gt hPh.2.1)
      have heqOne : scoreEqOne h.score := ⟨heq, hnum_pos⟩
      -- identify `h`'s underlying document
      obtain ⟨p, hp_mem, hp_eq⟩ := List.mem_map.mp hh_mem
      have hid : h.id = doc_id := by
        rcases mem_alSet_nodup st doc_id ⟨text, bowCounts text, meta⟩ hnd p hp_mem
          with hcase | ⟨hin, hne_id⟩
        · rw [← hp_eq, hcase]
        · exfalso
          refine huniq p hin hne_id ?_
          have : h.score = mkScore (bowCounts text) p.2.counts := by
            rw [← hp_eq]
          exact this ▸ heqOne
      refine ⟨h, ?_, hid, (scoreEqOne_iff_toReal h.score hPh.2.1).mp heqOne⟩
      show ((stableSortDesc hitLE
        (scoredList (st.upsert doc_id text meta) text)).take k).head? = some h
      rw [head?_take _ k hk, hfull]
      rfl

/-- Witness for the amended C7: inserting "hello world" into the empty
store and searching for its own text ranks it first with score 1. -/
theorem claim_C7_search_own_text_witness :
    ∃ h : SearchHit Unit,
      ((VectorStore.upsert ([] : VectorStore Unit) "a" "hello world" ()).search
        "hello world" 5).head? = some h ∧
      h.id = "a" ∧ h.score.toReal = 1 :=
  (claim_C7_search_own_text ([] : VectorStore Unit) "a" "hello world" ()
    "hello" 5 (by decide) WFStore_nil).2.2 (by decide) (by decide) (by decide)

end AIOS

